import Mathlib

/-!
Verification of the adaptive image compressor of the playnite_web_mqtt
repository (src/custom_components/playnite_web_mqtt/image_compressor.py,
with the legacy variant in src/switch.py and the caller in
src/custom_components/playnite_web_mqtt/switch.py).

The embedding is shallow: Python byte strings become `List Nat`, the PIL
image object is abstracted by its pixel dimensions, and the two PIL calls
with interesting behaviour are abstracted as function parameters:
`decode` stands for `PIL.Image.open` (returning `none` when the bytes are
not a recognizable image, in which case Python raises
`UnidentifiedImageError`), and `enc` stands for `image.save(..., format
= WEBP, quality = q)` writing into a buffer, modelled as the byte string
it produces for a given image and quality.  The scale factor of phase 2
(0.75, 0.50, 0.25, binary fractions that are exact in floating point for
realistic dimensions) is carried as a number of quarters `k`, so
`int(width * factor)` becomes `width * k / 4` in natural-number
arithmetic.  Loops are embedded as fuel-indexed structural recursions;
the fuel is chosen large enough, and lemmas below show it is never
exhausted under the documented configuration invariant.

Each embedded function also returns the trace of observable events it
performs (decode attempts, encode attempts with their phase, quality,
scale and result size, and semaphore acquire/release), which is how the
ordering and concurrency-gating sentences of the specification are
stated.
-/

namespace PlayniteWebMqtt

/-- Python byte strings, one `Nat` per byte. -/
abbrev Bytes := List Nat

/-- The in-memory encode buffer (`io.BytesIO`), identified with its
current contents. -/
abbrev Buffer := Bytes

/-- A decoded PIL image, abstracted by its dimensions (`image.size`). -/
structure PILImage where
  width : Nat
  height : Nat
deriving DecidableEq

/-- The Python exceptions that the embedded code can raise. -/
inductive PyError where
  /-- `PIL.UnidentifiedImageError`, raised by `Image.open` on bytes that
  are not a recognizable image (including empty input). -/
  | unidentifiedImage : PyError
  /-- `UnboundLocalError`, raised when a Python local variable is read
  before any assignment to it has executed. -/
  | unboundLocal : PyError
deriving DecidableEq

/-- Abstraction of `PIL.Image.open` on a byte string: `none` when Python
would raise `UnidentifiedImageError`. -/
abbrev Decoder := Bytes → Option PILImage

/-- Abstraction of the WebP encoder: the bytes that `image.save(buffer,
format = WEBP, quality = q, ...)` writes for a given image and quality. -/
abbrev Encoder := PILImage → Int → Bytes

/-- Equality of embedded Python results (returned value or raised
exception) is decidable, so that concrete runs can be checked by
evaluation. -/
instance {ε α : Type} [DecidableEq ε] [DecidableEq α] :
    DecidableEq (Except ε α) := fun x y =>
  match x, y with
  | .error a, .error b =>
    if h : a = b then isTrue (congrArg Except.error h)
    else isFalse (fun hh => h (Except.error.inj hh))
  | .ok a, .ok b =>
    if h : a = b then isTrue (congrArg Except.ok h)
    else isFalse (fun hh => h (Except.ok.inj hh))
  | .error _, .ok _ => isFalse (fun hh => Except.noConfusion hh)
  | .ok _, .error _ => isFalse (fun hh => Except.noConfusion hh)

/-- Observable events of one compression request. -/
inductive CompressionEvent where
  /-- `Image.open` was attempted on the input; the flag records whether
  it succeeded. -/
  | decodeAttempt : Bool → CompressionEvent
  /-- One encode attempt: phase (1 = quality search, 2 = resize search),
  quality passed to the encoder, scale factor in quarters of the
  original dimensions (4 = full resolution), and the byte length of the
  encoded result. -/
  | encode : Nat → Int → Nat → Nat → CompressionEvent
  /-- The caller acquired a slot of the module-level
  `compression_semaphore` of switch.py. -/
  | acquireSlot : CompressionEvent
  /-- The caller released that slot. -/
  | releaseSlot : CompressionEvent
deriving DecidableEq

/-- The quality an encode event used, if any. -/
def CompressionEvent.encodeQuality : CompressionEvent → Option Int
  | .encode _ q _ _ => some q
  | _ => none

/-- The encoded byte length an encode event produced, if any. -/
def CompressionEvent.encodeLen : CompressionEvent → Option Nat
  | .encode _ _ _ n => some n
  | _ => none

/-! ## Module constants of image_compressor.py -/

def DEFAULT_MAX_IMAGE_SIZE_BYTES : Nat := 14500

def DEFAULT_MIN_QUALITY : Int := 60

def DEFAULT_INITIAL_QUALITY : Int := 95

def DEFAULT_QUALITY_STEP : Int := 10

def DEFAULT_MAX_CONCURRENT_COMPRESSIONS : Nat := 5

/-! ## The ImageCompressor instance -/

/-- The fields that `ImageCompressor.__init__` stores on the instance.
The `asyncio.Semaphore(max_concurrent_compressions)` it also creates is
represented by recording its capacity; the fresh `BytesIO` buffer is
threaded explicitly through the functions below. -/
structure ImageCompressor where
  max_size : Nat
  min_quality : Int
  initial_quality : Int
  quality_step : Int
  max_concurrent_compressions : Nat
deriving DecidableEq

/-- Embedding of `ImageCompressor.__init__`.  Its Python signature takes
exactly four parameters (`max_size`, `min_quality`, `initial_quality`,
`max_concurrent_compressions`); `quality_step` is not a parameter and is
always set to `DEFAULT_QUALITY_STEP`. -/
def ImageCompressor.init (max_size : Nat) (min_quality : Int)
    (initial_quality : Int) (max_concurrent_compressions : Nat) :
    ImageCompressor :=
  ⟨max_size, min_quality, initial_quality, DEFAULT_QUALITY_STEP,
    max_concurrent_compressions⟩

/-- The compressor built with the Python default arguments, which are
also the defaults that `_setup_device_and_data` in
custom_components/playnite_web_mqtt/__init__.py supplies when the config
entry has no stored values (14500, 60, 95, 5). -/
def defaultImageCompressor : ImageCompressor :=
  ImageCompressor.init DEFAULT_MAX_IMAGE_SIZE_BYTES DEFAULT_MIN_QUALITY
    DEFAULT_INITIAL_QUALITY DEFAULT_MAX_CONCURRENT_COMPRESSIONS

/-! ## The compression functions of image_compressor.py -/

/-- Embedding of `ImageCompressor._apply_compression`: the shared buffer
is seeked to 0 and truncated to length 0, the WebP encoding of `image`
at `quality` is written into it, and `getvalue()` is returned.  After
the call the buffer holds exactly the encoded bytes, whatever it held
before. -/
def apply_compression (enc : Encoder) (buffer : Buffer) (image : PILImage)
    (quality : Int) : Buffer × Bytes :=
  let cleared : Buffer := []
  let written : Buffer := cleared ++ enc image quality
  (written, written)

/-- Fuel-indexed embedding of the `while quality >= self.min_quality`
loop of `ImageCompressor._progressive_quality_compression`.  `lastData`
is the Python local `compressed_image_data`: `none` while no loop
iteration has assigned it.  When the loop exits by the guard, the
function executes `return compressed_image_data`, which raises
`UnboundLocalError` when the body never ran.  `none` as overall result
means the fuel ran out before the loop exited (the Python loop would
still be running); the fuel chosen in
`progressive_quality_compression` is proved sufficient whenever
`0 < quality_step`. -/
def progressive_quality_loop (enc : Encoder) (c : ImageCompressor)
    (image : PILImage) :
    Nat → Int → Option Bytes → Buffer →
    Option (Buffer × Except PyError Bytes × List CompressionEvent)
  | 0, _, _, _ => none
  | fuel + 1, quality, lastData, buffer =>
    if c.min_quality ≤ quality then
      let step1 := apply_compression enc buffer image quality
      let buffer1 := step1.1
      let data := step1.2
      if data.length ≤ c.max_size then
        some (buffer1, .ok data, [.encode 1 quality 4 data.length])
      else
        match progressive_quality_loop enc c image fuel
            (quality - c.quality_step) (some data) buffer1 with
        | none => none
        | some (b, r, tr) =>
          some (b, r, .encode 1 quality 4 data.length :: tr)
    else
      match lastData with
      | some d => some (buffer, .ok d, [])
      | none => some (buffer, .error .unboundLocal, [])

/-- Fuel sufficient for the phase-1 loop whenever `0 < quality_step`:
one unit per attempted quality plus one for the final guard check. -/
def phase1Fuel (c : ImageCompressor) : Nat :=
  (c.initial_quality - c.min_quality).toNat + 2

/-- Embedding of `ImageCompressor._progressive_quality_compression`:
run the quality loop from `initial_quality` with no assignment to
`compressed_image_data` yet.  The fuel-exhaustion fallback (dead under
`0 < quality_step`, see `progressive_quality_loop_runs`) reports the
loop as not having produced a value. -/
def progressive_quality_compression (enc : Encoder) (c : ImageCompressor)
    (image : PILImage) (buffer : Buffer) :
    Buffer × Except PyError Bytes × List CompressionEvent :=
  match progressive_quality_loop enc c image (phase1Fuel c)
      c.initial_quality none buffer with
  | some r => r
  | none => (buffer, .error .unboundLocal, [])

/-- The resized image of one phase-2 round at scale `k/4`:
`int(width * factor)` with `factor` an exact binary fraction. -/
def scaled (image : PILImage) (k : Nat) : PILImage :=
  ⟨image.width * k / 4, image.height * k / 4⟩

/-- Embedding of the `while True` loop of
`ImageCompressor._resize_and_compress`, indexed by the scale factor in
quarters (entered at 3, i.e. 0.75).  Each round resizes the original
image, encodes it at `min_quality`, and returns when the budget is met
or the factor is at most 1 quarter (0.25); otherwise the factor drops by
one quarter.  The `0` pattern is unreachable from the real entry point
`resize_and_compress` (the loop returns at factor 1) and simply performs
its round, whose exit condition is then trivially true. -/
def resize_loop (enc : Encoder) (c : ImageCompressor) (image : PILImage) :
    Nat → Buffer → Buffer × Bytes × List CompressionEvent
  | 0, buffer =>
    let step1 := apply_compression enc buffer (scaled image 0) c.min_quality
    (step1.1, step1.2, [.encode 2 c.min_quality 0 step1.2.length])
  | k + 1, buffer =>
    let step1 := apply_compression enc buffer (scaled image (k + 1))
      c.min_quality
    let buffer1 := step1.1
    let data := step1.2
    if data.length ≤ c.max_size ∨ k + 1 ≤ 1 then
      (buffer1, data, [.encode 2 c.min_quality (k + 1) data.length])
    else
      let rest := resize_loop enc c image k buffer1
      (rest.1, rest.2.1,
        .encode 2 c.min_quality (k + 1) data.length :: rest.2.2)

/-- Embedding of `ImageCompressor._resize_and_compress`: the loop is
entered with `resize_factor = 0.75`, i.e. 3 quarters. -/
def resize_and_compress (enc : Encoder) (c : ImageCompressor)
    (image : PILImage) (buffer : Buffer) :
    Buffer × Bytes × List CompressionEvent :=
  resize_loop enc c image 3 buffer

/-- Embedding of `ImageCompressor.compress_image`.  Faithful to the
source order: `Image.open` runs first (raising on undecodable input),
then the size fast path, then phase 1, then — only if the phase-1 result
is still over budget — phase 2 on the original image.  The result is the
final buffer state, the returned bytes or raised exception, and the
event trace. -/
def compress_image (decode : Decoder) (enc : Encoder) (c : ImageCompressor)
    (buffer : Buffer) (image_data : Bytes) :
    Buffer × Except PyError Bytes × List CompressionEvent :=
  match decode image_data with
  | none => (buffer, .error .unidentifiedImage, [.decodeAttempt false])
  | some image =>
    if image_data.length ≤ c.max_size then
      (buffer, .ok image_data, [.decodeAttempt true])
    else
      let phase1 := progressive_quality_compression enc c image buffer
      let buffer1 := phase1.1
      match phase1.2.1 with
      | .error e => (buffer1, .error e, .decodeAttempt true :: phase1.2.2)
      | .ok d1 =>
        if c.max_size < d1.length then
          let phase2 := resize_and_compress enc c image buffer1
          (phase2.1, .ok phase2.2.1,
            .decodeAttempt true :: (phase1.2.2 ++ phase2.2.2))
        else
          (buffer1, .ok d1, .decodeAttempt true :: phase1.2.2)

/-! ## The legacy compression path of src/switch.py -/

/-- Embedding of the legacy `PlayniteGameSwitch.compress_image` of
src/switch.py: below 14500 bytes the input is returned unchanged;
otherwise `_compress_image_logic` (abstracted as `logic`) runs in an
executor and any exception it raises is caught, logged, and answered by
returning the original input bytes. -/
def legacy_compress_image (logic : Bytes → Except PyError Bytes)
    (image_data : Bytes) : Bytes :=
  if image_data.length ≤ 14500 then image_data
  else
    match logic image_data with
    | .ok d => d
    | .error _ => image_data

/-! ## The caller in custom_components/playnite_web_mqtt/switch.py -/

/-- The per-switch state that `handle_cover_image` reads and writes:
the cached hash of the last compressed payload, the cached compressed
bytes, and the compressor's shared buffer. -/
structure SwitchState where
  originalImageHash : Option Int
  compressedImageData : Option Bytes
  buffer : Buffer
deriving DecidableEq

/-- Embedding of the compression part of
`PlayniteGameSwitch.handle_cover_image` (binary-payload branch).  The
payload hash is compared with the cache; when the cached compressed data
is absent, the module-level `compression_semaphore` is acquired with
`async with` around the `compress_image` call, so it is released on both
the success and the exception path; a compression exception is caught
inside the `async with` block and leaves the caches unchanged. -/
def handle_cover_image (decode : Decoder) (enc : Encoder)
    (c : ImageCompressor) (hashFn : Bytes → Int) (st : SwitchState)
    (payload : Bytes) : SwitchState × List CompressionEvent :=
  let payloadHash := hashFn payload
  if st.originalImageHash = some payloadHash ∧
      st.compressedImageData.getD [] ≠ [] then
    (st, [])
  else
    if st.compressedImageData = none then
      let run := compress_image decode enc c st.buffer payload
      match run.2.1 with
      | .ok d =>
        (⟨some payloadHash, some d, run.1⟩,
          .acquireSlot :: run.2.2 ++ [.releaseSlot])
      | .error _ =>
        (⟨st.originalImageHash, st.compressedImageData, run.1⟩,
          .acquireSlot :: run.2.2 ++ [.releaseSlot])
    else
      (st, [])

/-! ## Helper description of the phase-1 attempt sequence -/

/-- The qualities the phase-1 loop attempts, in order, read off the
loop: from `q` downward in steps of `quality_step`, stopping after the
first quality whose encoding fits the budget, or when the guard fails. -/
def phase1Attempts (enc : Encoder) (c : ImageCompressor) (image : PILImage) :
    Nat → Int → List Int
  | 0, _ => []
  | fuel + 1, q =>
    if c.min_quality ≤ q then
      if (enc image q).length ≤ c.max_size then [q]
      else q :: phase1Attempts enc c image fuel (q - c.quality_step)
    else []

/-! ## Lemmas about the phase-1 loop -/

section Phase1

variable (enc : Encoder) (c : ImageCompressor) (image : PILImage)

/-- With positive step and enough fuel (one unit per attempt plus one
for the final guard check), the phase-1 loop terminates with a value,
provided the guard holds initially or some attempt already assigned the
result variable. -/
lemma progressive_quality_loop_ok :
    ∀ (fuel : Nat) (q : Int) (lastData : Option Bytes) (buffer : Buffer),
    0 < c.quality_step →
    (q - c.min_quality).toNat + 1 ≤ fuel →
    (c.min_quality ≤ q → (q - c.min_quality).toNat + 2 ≤ fuel) →
    (c.min_quality ≤ q ∨ lastData.isSome) →
    ∃ b d tr, progressive_quality_loop enc c image fuel q lastData buffer
      = some (b, .ok d, tr) := by
  intro fuel
  induction fuel with
  | zero => intro q lastData buffer _ h1 _ _; omega
  | succ n ih =>
    intro q lastData buffer hstep h1 h2 h3
    by_cases hq : c.min_quality ≤ q
    · by_cases hsz : (enc image q).length ≤ c.max_size
      · exact ⟨enc image q, enc image q,
          [.encode 1 q 4 (enc image q).length], by
          simp [progressive_quality_loop, apply_compression, hq, hsz]⟩
      · have h2' := h2 hq
        obtain ⟨b, d, tr, hrec⟩ :=
          ih (q - c.quality_step) (some (enc image q)) (enc image q)
            hstep (by omega) (by intro hq'; omega) (by simp)
        refine ⟨b, d, .encode 1 q 4 (enc image q).length :: tr, ?_⟩
        simp only [progressive_quality_loop, apply_compression,
          if_pos hq, if_neg hsz, List.nil_append]
        rw [hrec]
    · rcases h3 with hq' | hlast
      · exact absurd hq' hq
      · obtain ⟨d, rfl⟩ := Option.isSome_iff_exists.mp hlast
        exact ⟨buffer, d, [], by
          simp [progressive_quality_loop, hq]⟩

/-- The phase-1 function never hits the fuel fallback and returns a
successful encoding whenever the documented configuration invariant
holds. -/
lemma progressive_quality_compression_ok (buffer : Buffer)
    (hq : c.min_quality ≤ c.initial_quality) (hstep : 0 < c.quality_step) :
    ∃ b d tr, progressive_quality_compression enc c image buffer
      = (b, .ok d, tr) := by
  obtain ⟨b, d, tr, h⟩ :=
    progressive_quality_loop_ok enc c image (phase1Fuel c)
      c.initial_quality none buffer hstep
      (by unfold phase1Fuel; omega) (fun _ => by unfold phase1Fuel; omega)
      (Or.inl hq)
  exact ⟨b, d, tr, by simp [progressive_quality_compression, h]⟩

/-- The trace the phase-1 loop emits is exactly one encode event per
attempted quality, at full resolution, in attempt order. -/
lemma progressive_quality_loop_trace :
    ∀ (fuel : Nat) (q : Int) (lastData : Option Bytes) (buffer b : Buffer)
      (r : Except PyError Bytes) (tr : List CompressionEvent),
    progressive_quality_loop enc c image fuel q lastData buffer
      = some (b, r, tr) →
    tr = (phase1Attempts enc c image fuel q).map
      (fun ql => .encode 1 ql 4 (enc image ql).length) := by
  intro fuel
  induction fuel with
  | zero => intro q lastData buffer b r tr h; simp [progressive_quality_loop] at h
  | succ n ih =>
    intro q lastData buffer b r tr h
    by_cases hq : c.min_quality ≤ q
    · by_cases hsz : (enc image q).length ≤ c.max_size
      · simp [progressive_quality_loop, apply_compression, hq, hsz] at h
        obtain ⟨hb, hr, htr⟩ := h
        subst hb
        simp [phase1Attempts, hq, hsz, ← htr]
      · simp only [progressive_quality_loop, apply_compression,
          if_pos hq, if_neg hsz, List.nil_append] at h
        rcases hrec : progressive_quality_loop enc c image n
            (q - c.quality_step) (some (enc image q)) (enc image q) with
          _ | ⟨b', r', tr'⟩
        · rw [hrec] at h; simp at h
        · rw [hrec] at h
          simp only [Option.some.injEq, Prod.mk.injEq] at h
          obtain ⟨-, -, htr⟩ := h
          have := ih (q - c.quality_step) (some (enc image q))
            (enc image q) b' r' tr' hrec
          simp [phase1Attempts, hq, hsz, ← htr, this]
    · rcases lastData with _ | d <;>
        simp [progressive_quality_loop, hq] at h <;>
        simp [phase1Attempts, hq, h]

/-- A quality below the guard yields no attempts. -/
lemma phase1Attempts_nil (fuel : Nat) (q : Int) (hq : ¬ c.min_quality ≤ q) :
    phase1Attempts enc c image fuel q = [] := by
  cases fuel <;> simp [phase1Attempts, hq]

/-- The first attempted quality is the entry quality. -/
lemma phase1Attempts_head (fuel : Nat) (q : Int) (x : Int)
    (h : (phase1Attempts enc c image fuel q).head? = some x) : x = q := by
  cases fuel with
  | zero => simp [phase1Attempts] at h
  | succ n =>
    by_cases hq : c.min_quality ≤ q
    · by_cases hsz : (enc image q).length ≤ c.max_size <;>
        simp [phase1Attempts, hq, hsz] at h <;> omega
    · simp [phase1Attempts, hq] at h

/-- Every attempted quality respects the guard and never exceeds the
entry quality. -/
lemma phase1Attempts_mem (hstep : 0 < c.quality_step) :
    ∀ (fuel : Nat) (q : Int), ∀ x ∈ phase1Attempts enc c image fuel q,
    c.min_quality ≤ x ∧ x ≤ q := by
  intro fuel
  induction fuel with
  | zero => intro q x hx; simp [phase1Attempts] at hx
  | succ n ih =>
    intro q x hx
    by_cases hq : c.min_quality ≤ q
    · by_cases hsz : (enc image q).length ≤ c.max_size
      · simp [phase1Attempts, hq, hsz] at hx; omega
      · simp only [phase1Attempts, if_pos hq, if_neg hsz,
          List.mem_cons] at hx
        rcases hx with rfl | hx
        · omega
        · have := ih (q - c.quality_step) x hx
          omega
    · simp [phase1Attempts, hq] at hx

/-- Consecutive attempts differ by exactly one quality step, downward;
with a positive step each successive attempt is strictly lower. -/
lemma phase1Attempts_chain (hstep : 0 < c.quality_step) :
    ∀ (fuel : Nat) (q : Int),
    List.Chain' (fun a b => b = a - c.quality_step ∧ b < a)
      (phase1Attempts enc c image fuel q) := by
  intro fuel
  induction fuel with
  | zero => intro q; simp [phase1Attempts]
  | succ n ih =>
    intro q
    by_cases hq : c.min_quality ≤ q
    · by_cases hsz : (enc image q).length ≤ c.max_size
      · simp [phase1Attempts, hq, hsz]
      · simp only [phase1Attempts, if_pos hq, if_neg hsz]
        refine List.chain'_cons'.mpr ⟨?_, ih (q - c.quality_step)⟩
        intro y hy
        have := phase1Attempts_head enc c image n (q - c.quality_step) y hy
        omega
    · simp [phase1Attempts, hq]

/-- Every attempt except the last came out over budget: the search
stops at the first success. -/
lemma phase1Attempts_dropLast (fuel : Nat) (q : Int) :
    ∀ x ∈ (phase1Attempts enc c image fuel q).dropLast,
    c.max_size < (enc image x).length := by
  induction fuel generalizing q with
  | zero => intro x hx; simp [phase1Attempts] at hx
  | succ n ih =>
    intro x hx
    by_cases hq : c.min_quality ≤ q
    · by_cases hsz : (enc image q).length ≤ c.max_size
      · simp [phase1Attempts, hq, hsz] at hx
      · simp only [phase1Attempts, if_pos hq, if_neg hsz] at hx
        rcases hrest : phase1Attempts enc c image n (q - c.quality_step) with
          _ | ⟨y, ys⟩
        · rw [hrest] at hx; simp at hx
        · rw [hrest, List.dropLast_cons₂, List.mem_cons] at hx
          rcases hx with rfl | hx
          · omega
          · exact ih (q - c.quality_step) x (by rw [hrest]; exact hx)
    · simp [phase1Attempts, hq] at hx

/-- With the guard true on entry, at least one quality is attempted. -/
lemma phase1Attempts_ne_nil (fuel : Nat) (q : Int)
    (hq : c.min_quality ≤ q) :
    phase1Attempts enc c image (fuel + 1) q ≠ [] := by
  by_cases hsz : (enc image q).length ≤ c.max_size <;>
    simp [phase1Attempts, hq, hsz]

/-- The number of attempts is at most one more than the quotient of the
quality range by the step. -/
lemma phase1Attempts_length (hstep : 0 < c.quality_step) :
    ∀ (fuel : Nat) (q : Int),
    (phase1Attempts enc c image fuel q).length
      ≤ (q - c.min_quality).toNat / c.quality_step.toNat + 1 := by
  intro fuel
  induction fuel with
  | zero => intro q; simp [phase1Attempts]
  | succ n ih =>
    intro q
    by_cases hq : c.min_quality ≤ q
    · by_cases hsz : (enc image q).length ≤ c.max_size
      · simp [phase1Attempts, hq, hsz]
      · simp only [phase1Attempts, if_pos hq, if_neg hsz,
          List.length_cons]
        by_cases hq' : c.min_quality ≤ q - c.quality_step
        · have hsplit : (q - c.min_quality).toNat
              = (q - c.quality_step - c.min_quality).toNat
                + c.quality_step.toNat := by omega
          have hdiv : (q - c.min_quality).toNat / c.quality_step.toNat
              = (q - c.quality_step - c.min_quality).toNat
                / c.quality_step.toNat + 1 := by
            rw [hsplit, Nat.add_div_right _ (by omega)]
          have := ih (q - c.quality_step)
          omega
        · rw [phase1Attempts_nil enc c image n _ hq']
          simp
    · simp [phase1Attempts, hq]

end Phase1

/-! ## Lemmas about the phase-2 loop -/

section Phase2

variable (enc : Encoder) (c : ImageCompressor) (image : PILImage)

/-- Every event of the resize loop is a phase-2 encode of the original
image scaled to at most the entry factor, at `min_quality`. -/
lemma resize_loop_events :
    ∀ (k : Nat) (buffer : Buffer),
    ∀ e ∈ (resize_loop enc c image k buffer).2.2,
    ∃ k' n, e = .encode 2 c.min_quality k' n ∧ k' ≤ k := by
  intro k
  induction k with
  | zero =>
    intro buffer e he
    simp only [resize_loop, apply_compression, List.nil_append,
      List.mem_singleton] at he
    exact ⟨0, (enc (scaled image 0) c.min_quality).length, he,
      Nat.le_refl 0⟩
  | succ n ih =>
    intro buffer e he
    simp only [resize_loop, apply_compression, List.nil_append] at he
    by_cases hc : (enc (scaled image (n + 1)) c.min_quality).length
        ≤ c.max_size ∨ n + 1 ≤ 1
    · rw [if_pos hc] at he
      simp only [List.mem_singleton] at he
      exact ⟨n + 1, (enc (scaled image (n + 1)) c.min_quality).length, he,
        Nat.le_refl _⟩
    · rw [if_neg hc] at he
      rcases List.mem_cons.mp he with rfl | he'
      · exact ⟨n + 1, (enc (scaled image (n + 1)) c.min_quality).length,
          rfl, Nat.le_refl _⟩
      · obtain ⟨k', m, rfl, hk'⟩ := ih _ e he'
        exact ⟨k', m, rfl, by omega⟩

/-- Entered with a factor of at least one quarter, the resize loop
returns bytes within the budget or the encoding of the quarter-scale
image at `min_quality` (the best-effort floor). -/
lemma resize_loop_result :
    ∀ (k : Nat) (buffer : Buffer),
    (resize_loop enc c image (k + 1) buffer).2.1.length ≤ c.max_size ∨
    (resize_loop enc c image (k + 1) buffer).2.1
      = enc (scaled image 1) c.min_quality := by
  intro k
  induction k with
  | zero =>
    intro buffer
    right
    simp [resize_loop, apply_compression]
  | succ n ih =>
    intro buffer
    by_cases hsz : (enc (scaled image (n + 1 + 1)) c.min_quality).length
        ≤ c.max_size
    · left
      have hc : (enc (scaled image (n + 1 + 1)) c.min_quality).length
          ≤ c.max_size ∨ n + 1 + 1 ≤ 1 := Or.inl hsz
      simp only [resize_loop, apply_compression, List.nil_append,
        if_pos hc]
      exact hsz
    · have hc : ¬ ((enc (scaled image (n + 1 + 1)) c.min_quality).length
          ≤ c.max_size ∨ n + 1 + 1 ≤ 1) := by
        push_neg
        exact ⟨by omega, by omega⟩
      simp only [resize_loop, apply_compression, List.nil_append,
        if_neg hc]
      exact ih (enc (scaled image (n + 1 + 1)) c.min_quality)

/-- The resize loop ignores the incoming buffer entirely: its first
attempt truncates the buffer before writing. -/
lemma resize_loop_buffer_indep :
    ∀ (k : Nat) (b1 b2 : Buffer),
    resize_loop enc c image k b1 = resize_loop enc c image k b2 := by
  intro k b1 b2
  cases k <;> rfl

end Phase2

/-! ## Buffer independence and trace structure of compress_image -/

section WholeFunction

variable (decode : Decoder) (enc : Encoder) (c : ImageCompressor)
  (image : PILImage)

/-- The returned value and the trace of the phase-1 loop do not depend
on the incoming buffer: every attempt truncates the buffer before
writing. -/
lemma progressive_quality_loop_buffer_indep :
    ∀ (fuel : Nat) (q : Int) (lastData : Option Bytes) (b1 b2 : Buffer),
    (progressive_quality_loop enc c image fuel q lastData b1).map
        (fun x => x.2)
      = (progressive_quality_loop enc c image fuel q lastData b2).map
        (fun x => x.2) := by
  intro fuel q lastData b1 b2
  cases fuel with
  | zero => rfl
  | succ n =>
    by_cases hq : c.min_quality ≤ q
    · simp only [progressive_quality_loop, apply_compression,
        List.nil_append, if_pos hq]
    · rcases lastData with _ | d <;>
        simp [progressive_quality_loop, hq]

/-- The phase-1 result and trace do not depend on the incoming buffer. -/
lemma progressive_quality_compression_buffer_indep (b1 b2 : Buffer) :
    (progressive_quality_compression enc c image b1).2
      = (progressive_quality_compression enc c image b2).2 := by
  have h := progressive_quality_loop_buffer_indep enc c image
    (phase1Fuel c) c.initial_quality none b1 b2
  unfold progressive_quality_compression
  rcases h1 : progressive_quality_loop enc c image (phase1Fuel c)
      c.initial_quality none b1 with _ | ⟨x1, r1, t1⟩ <;>
    rcases h2 : progressive_quality_loop enc c image (phase1Fuel c)
        c.initial_quality none b2 with _ | ⟨x2, r2, t2⟩ <;>
    rw [h1, h2] at h <;> simp_all

/-- The value and trace of a whole compression request do not depend on
the buffer contents left over from earlier requests. -/
lemma compress_image_buffer_indep (b1 b2 : Buffer) (image_data : Bytes) :
    (compress_image decode enc c b1 image_data).2
      = (compress_image decode enc c b2 image_data).2 := by
  unfold compress_image
  rcases decode image_data with _ | image
  · rfl
  · by_cases hsz : image_data.length ≤ c.max_size
    · simp [hsz]
    · simp only [if_neg hsz]
      have h := progressive_quality_compression_buffer_indep enc c image
        b1 b2
      rcases h1 : progressive_quality_compression enc c image b1 with
        ⟨x1, r1, t1⟩
      rcases h2 : progressive_quality_compression enc c image b2 with
        ⟨x2, r2, t2⟩
      rw [h1, h2] at h
      simp only at h
      obtain ⟨hr, ht⟩ := Prod.mk.injEq .. ▸ h
      · subst hr ht
        rcases r1 with e | d1
        · rfl
        · by_cases hd : c.max_size < d1.length
          · simp only [if_pos hd]
            have hr : resize_and_compress enc c image x1
                = resize_and_compress enc c image x2 :=
              resize_loop_buffer_indep enc c image 3 x1 x2
            rw [hr]
          · simp [hd]

/-- Every event of the phase-1 function is a full-resolution phase-1
encode. -/
lemma progressive_quality_compression_events (buffer : Buffer) :
    ∀ e ∈ (progressive_quality_compression enc c image buffer).2.2,
    ∃ q n, e = .encode 1 q 4 n := by
  intro e he
  unfold progressive_quality_compression at he
  rcases h : progressive_quality_loop enc c image (phase1Fuel c)
      c.initial_quality none buffer with _ | ⟨b, r, tr⟩
  · rw [h] at he; simp at he
  · rw [h] at he
    simp only at he
    rw [progressive_quality_loop_trace enc c image _ _ _ _ _ _ _ h] at he
    obtain ⟨ql, -, rfl⟩ := List.mem_map.mp he
    exact ⟨ql, (enc image ql).length, rfl⟩

/-- Trace structure of one request on decodable input: one decode
event, then all phase-1 encode events, then all phase-2 encode events
(possibly none). -/
lemma compress_image_trace (buffer : Buffer) (image_data : Bytes)
    (hdec : decode image_data = some image) :
    ∃ t1 t2, (compress_image decode enc c buffer image_data).2.2
        = .decodeAttempt true :: (t1 ++ t2)
      ∧ (∀ e ∈ t1, ∃ q n, e = .encode 1 q 4 n)
      ∧ (∀ e ∈ t2, ∃ k n, e = .encode 2 c.min_quality k n) := by
  unfold compress_image
  rw [hdec]
  by_cases hsz : image_data.length ≤ c.max_size
  · exact ⟨[], [], by simp [hsz], by simp, by simp⟩
  · simp only [if_neg hsz]
    rcases h1 : progressive_quality_compression enc c image buffer with
      ⟨b1, r1, t1⟩
    have ht1 : ∀ e ∈ t1, ∃ q n, e = .encode 1 q 4 n := by
      intro e he
      exact progressive_quality_compression_events enc c image buffer e
        (by rw [h1]; exact he)
    rcases r1 with e | d1
    · exact ⟨t1, [], by simp, ht1, by simp⟩
    · by_cases hd : c.max_size < d1.length
      · refine ⟨t1, (resize_and_compress enc c image b1).2.2, ?_, ht1, ?_⟩
        · simp [hd]
        · intro e he
          obtain ⟨k', n, rfl, -⟩ :=
            resize_loop_events enc c image 3 b1 e he
          exact ⟨k', n, rfl⟩
      · exact ⟨t1, [], by simp [hd], ht1, by simp⟩

/-- When the phase-1 function returns a success, the underlying loop
returned it (the fuel fallback only ever yields an error). -/
lemma progressive_quality_compression_loop_eq (buffer b : Buffer)
    (d : Bytes) (tr : List CompressionEvent)
    (h : progressive_quality_compression enc c image buffer
      = (b, .ok d, tr)) :
    progressive_quality_loop enc c image (phase1Fuel c)
        c.initial_quality none buffer = some (b, .ok d, tr) := by
  unfold progressive_quality_compression at h
  rcases hl : progressive_quality_loop enc c image (phase1Fuel c)
      c.initial_quality none buffer with _ | x
  · rw [hl] at h
    simp at h
  · rw [hl] at h
    simp only at h
    rw [h]

/-- Reading the qualities back off a phase-1 trace recovers the attempt
list. -/
lemma filterMap_quality_map (L : List Int) :
    (L.map (fun ql => CompressionEvent.encode 1 ql 4
      (enc image ql).length)).filterMap CompressionEvent.encodeQuality
    = L := by
  induction L with
  | nil => rfl
  | cons a l ih => simp [CompressionEvent.encodeQuality, ih]

/-- Reading the result sizes back off a phase-1 trace gives the encoded
length of each attempt. -/
lemma filterMap_len_map (L : List Int) :
    (L.map (fun ql => CompressionEvent.encode 1 ql 4
      (enc image ql).length)).filterMap CompressionEvent.encodeLen
    = L.map (fun ql => (enc image ql).length) := by
  induction L with
  | nil => rfl
  | cons a l ih => simp [CompressionEvent.encodeLen, ih]

/-- Every event a whole request emits is a decode attempt or an encode
attempt; no other event kind exists on any path. -/
lemma compress_image_events (buffer : Buffer) (image_data : Bytes) :
    ∀ e ∈ (compress_image decode enc c buffer image_data).2.2,
    (∃ bo, e = .decodeAttempt bo) ∨ ∃ p q k n, e = .encode p q k n := by
  intro e he
  rcases hdec : decode image_data with _ | image
  · unfold compress_image at he
    rw [hdec] at he
    simp only [List.mem_singleton] at he
    exact Or.inl ⟨false, he⟩
  · obtain ⟨t1, t2, htr, h1, h2⟩ :=
      compress_image_trace decode enc c image buffer image_data hdec
    rw [htr] at he
    rcases List.mem_cons.mp he with rfl | he'
    · exact Or.inl ⟨true, rfl⟩
    · rcases List.mem_append.mp he' with h | h
      · obtain ⟨q, n, rfl⟩ := h1 e h
        exact Or.inr ⟨1, q, 4, n, rfl⟩
      · obtain ⟨k, n, rfl⟩ := h2 e h
        exact Or.inr ⟨2, c.min_quality, k, n, rfl⟩

end WholeFunction

/-! ## Claim theorems -/

/-- C2, counterexample.  The claim says the size fast path runs before
any decode, so that even undecodable input within the budget is
returned unchanged.  In the code `Image.open` runs first: the one-byte
input `[1]` is within the default 14500-byte budget, yet with a decoder
that rejects it the call raises `UnidentifiedImageError` instead of
returning the input. -/
theorem C2_counterexample :
    (compress_image (fun _ => none) (fun _ _ => [])
        defaultImageCompressor [] [1]).2.1 = .error .unidentifiedImage
    ∧ (compress_image (fun _ => none) (fun _ _ => [])
        defaultImageCompressor [] [1]).2.1 ≠ .ok [1] := by
  constructor
  · rfl
  · intro h
    simp [compress_image] at h

/-- C2, amended.  For every input that decodes and whose length is at
most `max_size`, `compress_image` returns the input bytes unchanged,
with no encode attempt and an untouched buffer; the decode attempt
itself, however, precedes the size check, so this holds only for
decodable input. -/
theorem C2_fast_path (decode : Decoder) (enc : Encoder)
    (c : ImageCompressor) (buffer : Buffer) (image_data : Bytes)
    (image : PILImage) (hdec : decode image_data = some image)
    (hsz : image_data.length ≤ c.max_size) :
    compress_image decode enc c buffer image_data
      = (buffer, .ok image_data, [.decodeAttempt true]) := by
  simp [compress_image, hdec, hsz]

/-- C2, witness.  The fast path at a concrete decodable one-byte input
under the default configuration. -/
theorem C2_witness :
    (fun (_ : Bytes) => some (⟨2, 2⟩ : PILImage)) [7] = some ⟨2, 2⟩
    ∧ ([7] : Bytes).length ≤ defaultImageCompressor.max_size
    ∧ compress_image (fun _ => some ⟨2, 2⟩) (fun _ _ => [])
        defaultImageCompressor [] [7]
      = ([], .ok [7], [.decodeAttempt true]) :=
  ⟨rfl, by decide,
    C2_fast_path (fun _ => some ⟨2, 2⟩) (fun _ _ => [])
      defaultImageCompressor [] [7] ⟨2, 2⟩ rfl (by decide)⟩

/-- C6.  Input that does not decode (PIL's `Image.open` also fails on
empty bytes) makes `compress_image` fail with the decode error
immediately: the error is the raw `UnidentifiedImageError`, the trace
holds the single failed decode attempt and nothing else (no retry, no
encode attempt), no bytes are returned, and the buffer is unchanged. -/
theorem C6_decode_failure (decode : Decoder) (enc : Encoder)
    (c : ImageCompressor) (buffer : Buffer) (image_data : Bytes)
    (hdec : decode image_data = none) :
    compress_image decode enc c buffer image_data
      = (buffer, .error .unidentifiedImage, [.decodeAttempt false]) := by
  simp [compress_image, hdec]

/-- C6, witness.  The decode failure at concrete empty input. -/
theorem C6_witness :
    (fun (_ : Bytes) => (none : Option PILImage)) [] = none
    ∧ compress_image (fun _ => none) (fun _ _ => [])
        defaultImageCompressor [] []
      = ([], .error .unidentifiedImage, [.decodeAttempt false]) :=
  ⟨rfl, C6_decode_failure (fun _ => none) (fun _ _ => [])
    defaultImageCompressor [] [] rfl⟩

/-- C9, counterexample.  The claim says all five configuration
parameters, `quality_step` included, are caller-supplied at
construction.  The constructor takes only four parameters; no
combination of constructor arguments yields a `quality_step` other than
the fixed `DEFAULT_QUALITY_STEP`. -/
theorem C9_counterexample :
    ¬ ∃ ms mq iq mc, (ImageCompressor.init ms mq iq mc).quality_step
      ≠ DEFAULT_QUALITY_STEP := by
  rintro ⟨ms, mq, iq, mc, h⟩
  exact h rfl

/-- C9, amended.  Four of the five configuration parameters
(`max_size`, `min_quality`, `initial_quality`,
`max_concurrent_compressions`) are caller-supplied at construction,
with defaults 14500, 60, 95 and 5 both in the constructor and in
`_setup_device_and_data`; `quality_step` is not settable and is always
10.  The configuration is a plain record fixed at construction. -/
theorem C9_construction (ms : Nat) (mq iq : Int) (mc : Nat) :
    defaultImageCompressor = ⟨14500, 60, 95, 10, 5⟩
    ∧ ImageCompressor.init ms mq iq mc = ⟨ms, mq, iq, 10, mc⟩ :=
  ⟨rfl, rfl⟩

/-- C9, witness.  The construction facts at concrete arguments. -/
theorem C9_witness :
    defaultImageCompressor = ⟨14500, 60, 95, 10, 5⟩
    ∧ ImageCompressor.init 1 2 3 4 = ⟨1, 2, 3, 10, 4⟩ :=
  C9_construction 1 2 3 4

/-- C5, counterexample.  The claim says a compression exception is
never silently swallowed with a fallback to the original input bytes.
The legacy `compress_image` of src/switch.py does exactly that: when
the compression logic raises on an over-budget input, the original
bytes come back. -/
theorem C5_counterexample :
    legacy_compress_image (fun _ => .error .unidentifiedImage)
        (List.replicate 14501 0)
      = List.replicate 14501 0 := by
  unfold legacy_compress_image
  rw [List.length_replicate, if_neg (by omega : ¬ (14501 ≤ 14500))]

/-- C5, amended.  `ImageCompressor.compress_image` surfaces exceptions
to the caller, but unwrapped — a decode failure propagates as the raw
error with no phase or quality context attached — while the legacy
`PlayniteGameSwitch.compress_image` of src/switch.py catches every
exception of its compression logic and silently falls back to
returning the original input bytes. -/
theorem C5_exception_paths (logic : Bytes → Except PyError Bytes)
    (decode : Decoder) (enc : Encoder) (c : ImageCompressor)
    (buffer : Buffer) (image_data legacy_data : Bytes) (e : PyError)
    (hlen : 14500 < legacy_data.length)
    (hfail : logic legacy_data = .error e)
    (hdec : decode image_data = none) :
    legacy_compress_image logic legacy_data = legacy_data
    ∧ (compress_image decode enc c buffer image_data).2.1
      = .error .unidentifiedImage := by
  constructor
  · simp [legacy_compress_image, hfail, if_neg (by omega : ¬ legacy_data.length ≤ 14500)]
  · simp [compress_image, hdec]

/-- C5, witness.  The two exception paths at concrete inputs: an
over-budget input whose compression logic raises, and an undecodable
input under the default configuration. -/
theorem C5_witness :
    14500 < (List.replicate 14501 0 : Bytes).length
    ∧ (fun (_ : Bytes) => (Except.error .unboundLocal : Except PyError Bytes))
        (List.replicate 14501 0) = .error .unboundLocal
    ∧ (fun (_ : Bytes) => (none : Option PILImage)) [3] = none
    ∧ (legacy_compress_image (fun _ => .error .unboundLocal)
        (List.replicate 14501 0) = List.replicate 14501 0
      ∧ (compress_image (fun _ => none) (fun _ _ => [])
          defaultImageCompressor [] [3]).2.1 = .error .unidentifiedImage) :=
  ⟨by rw [List.length_replicate]; omega, rfl, rfl,
    C5_exception_paths (fun _ => .error .unboundLocal) (fun _ => none)
      (fun _ _ => []) defaultImageCompressor [] [3]
      (List.replicate 14501 0) .unboundLocal
      (by rw [List.length_replicate]; omega) rfl rfl⟩

/-- C8, counterexample.  The claim says no compressor state retains the
request's bytes after the call returns.  On a concrete over-budget
request the instance buffer still holds the encoded bytes that the call
returned, because `_apply_compression` clears the shared buffer only at
the start of the next attempt. -/
theorem C8_counterexample :
    (compress_image (fun _ => some ⟨4, 4⟩) (fun _ _ => [9])
        ⟨0, 0, 5, 1, 5⟩ [] [1, 2]).1 = [9]
    ∧ (compress_image (fun _ => some ⟨4, 4⟩) (fun _ _ => [9])
        ⟨0, 0, 5, 1, 5⟩ [] [1, 2]).2.1 = .ok [9]
    ∧ ([9] : Bytes) ≠ [] := by
  refine ⟨rfl, rfl, by simp⟩

/-- C8, amended.  The shared encode buffer is fully reset at the start
of each attempt, so the outcome and trace of a request are independent
of whatever the buffer held from earlier requests; in particular two
calls with identical input bytes and identical configuration return
equal results.  However the instance buffer does retain the last
attempt's encoded bytes after the call returns. -/
theorem C8_no_cross_request_effect (decode : Decoder) (enc : Encoder)
    (c : ImageCompressor) (b1 b2 : Buffer) (image_data : Bytes) :
    (compress_image decode enc c b1 image_data).2
      = (compress_image decode enc c b2 image_data).2 :=
  compress_image_buffer_indep decode enc c b1 b2 image_data

/-- C8, witness.  Buffer independence at a concrete pair of distinct
inherited buffers. -/
theorem C8_witness :
    (compress_image (fun _ => some ⟨4, 4⟩) (fun _ _ => [9])
        ⟨0, 0, 5, 1, 5⟩ [7, 7, 7] [1, 2]).2
      = (compress_image (fun _ => some ⟨4, 4⟩) (fun _ _ => [9])
        ⟨0, 0, 5, 1, 5⟩ [] [1, 2]).2 :=
  C8_no_cross_request_effect (fun _ => some ⟨4, 4⟩) (fun _ _ => [9])
    ⟨0, 0, 5, 1, 5⟩ [7, 7, 7] [] [1, 2]

/-- C10.  The constructor does not validate `min_quality ≤
initial_quality`.  When `initial_quality < min_quality`, the phase-1
loop body never runs for a decodable over-budget input, the trailing
`return compressed_image_data` reads an unassigned local, and
`compress_image` raises `UnboundLocalError` instead of returning bytes.
Under the precondition `min_quality ≤ initial_quality` (with the fixed
positive step), at least one encode attempt happens and phase 1 always
returns bytes. -/
theorem C10_unbound_local (decode : Decoder) (enc : Encoder)
    (c : ImageCompressor) (buffer : Buffer) (image : PILImage)
    (image_data : Bytes) (hdec : decode image_data = some image)
    (hbig : c.max_size < image_data.length) :
    (c.initial_quality < c.min_quality →
      progressive_quality_compression enc c image buffer
          = (buffer, .error .unboundLocal, [])
      ∧ (compress_image decode enc c buffer image_data).2
          = (.error .unboundLocal, [.decodeAttempt true]))
    ∧ (c.min_quality ≤ c.initial_quality → 0 < c.quality_step →
      ∃ b d tr, progressive_quality_compression enc c image buffer
          = (b, .ok d, tr) ∧ tr ≠ []) := by
  constructor
  · intro hlt
    have hf : phase1Fuel c = 1 + 1 := by
      unfold phase1Fuel; omega
    have hloop : progressive_quality_loop enc c image (phase1Fuel c)
        c.initial_quality none buffer
        = some (buffer, .error .unboundLocal, []) := by
      rw [hf]
      simp [progressive_quality_loop,
        if_neg (by omega : ¬ c.min_quality ≤ c.initial_quality)]
    have hpqc : progressive_quality_compression enc c image buffer
        = (buffer, .error .unboundLocal, []) := by
      unfold progressive_quality_compression
      rw [hloop]
    refine ⟨hpqc, ?_⟩
    have hif : ¬ image_data.length ≤ c.max_size := by omega
    simp [compress_image, hdec, if_neg hif, hpqc]
  · intro hq hstep
    obtain ⟨b, d, tr, h⟩ :=
      progressive_quality_compression_ok enc c image buffer hq hstep
    refine ⟨b, d, tr, h, ?_⟩
    have hloop := progressive_quality_compression_loop_eq enc c image
      buffer b d tr h
    have htr := progressive_quality_loop_trace enc c image
      (phase1Fuel c) c.initial_quality none buffer b (.ok d) tr hloop
    have hf : phase1Fuel c
        = ((c.initial_quality - c.min_quality).toNat + 1) + 1 := by
      unfold phase1Fuel; omega
    have hne := phase1Attempts_ne_nil enc c image
      ((c.initial_quality - c.min_quality).toNat + 1) c.initial_quality hq
    rw [htr, hf]
    intro hcon
    exact hne (List.map_eq_nil_iff.mp hcon)

/-- C10, witness.  A configuration with `initial_quality = 1 <
min_quality = 5` raises the unbound-local error at a concrete decodable
over-budget input, and the default-shaped configuration returns bytes
with a nonempty attempt trace. -/
theorem C10_witness :
    (fun (_ : Bytes) => some (⟨4, 4⟩ : PILImage)) [1, 2] = some ⟨4, 4⟩
    ∧ (0 : Nat) < ([1, 2] : Bytes).length
    ∧ ((1 : Int) < 5 →
      progressive_quality_compression (fun _ _ => [9]) ⟨0, 5, 1, 10, 5⟩
          ⟨4, 4⟩ [] = ([], .error .unboundLocal, [])
      ∧ (compress_image (fun _ => some ⟨4, 4⟩) (fun _ _ => [9])
          ⟨0, 5, 1, 10, 5⟩ [] [1, 2]).2
        = (.error .unboundLocal, [.decodeAttempt true])) :=
  ⟨rfl, by decide,
    fun h =>
      (C10_unbound_local (fun _ => some ⟨4, 4⟩) (fun _ _ => [9])
        ⟨0, 5, 1, 10, 5⟩ [] ⟨4, 4⟩ [1, 2] rfl (by decide)).1 h⟩

/-- C4, counterexample.  The claim says every call to the compressor's
compress operation acquires a slot of the compressor's own admission
limiter before encode work.  On a concrete over-budget request,
`compress_image` performs encode attempts yet its trace contains no
acquire and no release of any semaphore slot: the instance's
`compression_semaphore` is created in the constructor but never used. -/
theorem C4_counterexample :
    (∃ e ∈ (compress_image (fun _ => some ⟨4, 4⟩) (fun _ _ => [9])
        ⟨0, 0, 5, 1, 5⟩ [] [1, 2]).2.2, e.encodeLen.isSome)
    ∧ CompressionEvent.acquireSlot
        ∉ (compress_image (fun _ => some ⟨4, 4⟩) (fun _ _ => [9])
          ⟨0, 0, 5, 1, 5⟩ [] [1, 2]).2.2
    ∧ CompressionEvent.releaseSlot
        ∉ (compress_image (fun _ => some ⟨4, 4⟩) (fun _ _ => [9])
          ⟨0, 0, 5, 1, 5⟩ [] [1, 2]).2.2 := by
  decide

/-- C4, amended.  Concurrency gating lives in the caller, not in the
compressor: when `handle_cover_image` has no cached compressed bytes,
it acquires a slot of the module-level semaphore of switch.py before
invoking `compress_image`, every event of the compression itself lies
strictly between that acquire and the matching release, and the release
happens unconditionally — the trace has the same
acquire-first/release-last shape on both the success and the exception
path of the compression. -/
theorem C4_caller_gate (decode : Decoder) (enc : Encoder)
    (c : ImageCompressor) (hashFn : Bytes → Int) (st : SwitchState)
    (payload : Bytes) (hnone : st.compressedImageData = none) :
    ∃ tr, (handle_cover_image decode enc c hashFn st payload).2
        = .acquireSlot :: tr ++ [.releaseSlot]
      ∧ tr = (compress_image decode enc c st.buffer payload).2.2
      ∧ ∀ e ∈ tr, e ≠ .acquireSlot ∧ e ≠ .releaseSlot := by
  refine ⟨(compress_image decode enc c st.buffer payload).2.2, ?_, rfl, ?_⟩
  · unfold handle_cover_image
    rw [if_neg (by rw [hnone]; simp), if_pos hnone]
    rcases hr : (compress_image decode enc c st.buffer payload).2.1 with
      e | d <;> simp [hr]
  · intro e he
    rcases compress_image_events decode enc c st.buffer payload e he with
      ⟨bo, rfl⟩ | ⟨p, q, k, n, rfl⟩ <;> exact ⟨by simp, by simp⟩

/-- C4, witness.  The caller-side gate at a concrete fresh switch
state. -/
theorem C4_witness :
    (⟨none, none, []⟩ : SwitchState).compressedImageData = none
    ∧ ∃ tr, (handle_cover_image (fun _ => some ⟨4, 4⟩) (fun _ _ => [9])
          ⟨0, 0, 5, 1, 5⟩ (fun _ => 7) ⟨none, none, []⟩ [1, 2]).2
        = .acquireSlot :: tr ++ [.releaseSlot]
      ∧ tr = (compress_image (fun _ => some ⟨4, 4⟩) (fun _ _ => [9])
          ⟨0, 0, 5, 1, 5⟩ [] [1, 2]).2.2
      ∧ ∀ e ∈ tr, e ≠ .acquireSlot ∧ e ≠ .releaseSlot :=
  ⟨rfl, C4_caller_gate (fun _ => some ⟨4, 4⟩) (fun _ _ => [9])
    ⟨0, 0, 5, 1, 5⟩ (fun _ => 7) ⟨none, none, []⟩ [1, 2] rfl⟩

/-- C7.  Within one request on decodable input, the trace opens with
the single decode event and never repeats it, and every phase-1 encode
event precedes every phase-2 encode event: decode happens exactly once,
and phase 1 fully completes before any resize attempt. -/
theorem C7_decode_once_phases_ordered (decode : Decoder) (enc : Encoder)
    (c : ImageCompressor) (buffer : Buffer) (image_data : Bytes)
    (image : PILImage) (hdec : decode image_data = some image) :
    ∃ t1 t2, (compress_image decode enc c buffer image_data).2.2
        = .decodeAttempt true :: (t1 ++ t2)
      ∧ (∀ e ∈ t1, ∃ q n, e = .encode 1 q 4 n)
      ∧ (∀ e ∈ t2, ∃ k n, e = .encode 2 c.min_quality k n)
      ∧ (∀ bo : Bool, .decodeAttempt bo ∉ t1 ++ t2) := by
  obtain ⟨t1, t2, htr, h1, h2⟩ :=
    compress_image_trace decode enc c image buffer image_data hdec
  refine ⟨t1, t2, htr, h1, h2, ?_⟩
  intro bo hmem
  rcases List.mem_append.mp hmem with h | h
  · obtain ⟨q, n, hqn⟩ := h1 _ h
    simp at hqn
  · obtain ⟨k, n, hkn⟩ := h2 _ h
    simp at hkn

/-- C7, witness.  The single-decode, phase-ordered trace at a concrete
over-budget request that exercises both phases. -/
theorem C7_witness :
    (fun (_ : Bytes) => some (⟨4, 4⟩ : PILImage)) [1, 2] = some ⟨4, 4⟩
    ∧ ∃ t1 t2, (compress_image (fun _ => some ⟨4, 4⟩) (fun _ _ => [9])
          ⟨0, 0, 5, 1, 5⟩ [] [1, 2]).2.2
        = .decodeAttempt true :: (t1 ++ t2)
      ∧ (∀ e ∈ t1, ∃ q n, e = .encode 1 q 4 n)
      ∧ (∀ e ∈ t2, ∃ k n, e = .encode 2 (⟨0, 0, 5, 1, 5⟩ :
          ImageCompressor).min_quality k n)
      ∧ (∀ bo : Bool, .decodeAttempt bo ∉ t1 ++ t2) :=
  ⟨rfl, C7_decode_once_phases_ordered (fun _ => some ⟨4, 4⟩)
    (fun _ _ => [9]) ⟨0, 0, 5, 1, 5⟩ [] [1, 2] ⟨4, 4⟩ rfl⟩

/-- C1.  For every decodable input larger than `max_size` (under the
documented configuration invariant `min_quality ≤ initial_quality` and
the fixed positive step), `compress_image` returns some encoded bytes
rather than failing, and the result is within the budget or is the
phase-2 encoding of the quarter-scale image at `min_quality` — the
best-effort floor. -/
theorem C1_budget_convergence (decode : Decoder) (enc : Encoder)
    (c : ImageCompressor) (buffer : Buffer) (image_data : Bytes)
    (image : PILImage) (hdec : decode image_data = some image)
    (hbig : c.max_size < image_data.length)
    (hq : c.min_quality ≤ c.initial_quality)
    (hstep : 0 < c.quality_step) :
    ∃ out, (compress_image decode enc c buffer image_data).2.1 = .ok out
      ∧ (out.length ≤ c.max_size
        ∨ out = enc (scaled image 1) c.min_quality) := by
  obtain ⟨b, d, tr, h1⟩ :=
    progressive_quality_compression_ok enc c image buffer hq hstep
  have hif : ¬ image_data.length ≤ c.max_size := by omega
  by_cases hd : c.max_size < d.length
  · have hout : (compress_image decode enc c buffer image_data).2.1
        = .ok (resize_and_compress enc c image b).2.1 := by
      simp [compress_image, hdec, if_neg hif, h1, if_pos hd]
    rcases resize_loop_result enc c image 2 b with hres | hres
    · exact ⟨_, hout, Or.inl hres⟩
    · exact ⟨_, hout, Or.inr hres⟩
  · have hout : (compress_image decode enc c buffer image_data).2.1
        = .ok d := by
      simp [compress_image, hdec, if_neg hif, h1, if_neg hd]
    exact ⟨d, hout, Or.inl (by omega)⟩

/-- C1, witness.  A concrete decodable over-budget input whose encoder
never fits the budget: the result is the floor-scale encoding at
`min_quality`. -/
theorem C1_witness :
    (fun (_ : Bytes) => some (⟨8, 8⟩ : PILImage)) [5, 5, 5] = some ⟨8, 8⟩
    ∧ (⟨2, 1, 3, 1, 5⟩ : ImageCompressor).max_size
        < ([5, 5, 5] : Bytes).length
    ∧ (⟨2, 1, 3, 1, 5⟩ : ImageCompressor).min_quality
        ≤ (⟨2, 1, 3, 1, 5⟩ : ImageCompressor).initial_quality
    ∧ (0 : Int) < (⟨2, 1, 3, 1, 5⟩ : ImageCompressor).quality_step
    ∧ ∃ out, (compress_image (fun _ => some ⟨8, 8⟩) (fun _ _ => [0, 0, 0])
          ⟨2, 1, 3, 1, 5⟩ [] [5, 5, 5]).2.1 = .ok out
      ∧ (out.length ≤ (⟨2, 1, 3, 1, 5⟩ : ImageCompressor).max_size
        ∨ out = (fun (_ : PILImage) (_ : Int) => ([0, 0, 0] : Bytes))
            (scaled ⟨8, 8⟩ 1)
            (⟨2, 1, 3, 1, 5⟩ : ImageCompressor).min_quality) :=
  ⟨rfl, by decide, by decide, by decide,
    C1_budget_convergence (fun _ => some ⟨8, 8⟩) (fun _ _ => [0, 0, 0])
      ⟨2, 1, 3, 1, 5⟩ [] [5, 5, 5] ⟨8, 8⟩ rfl (by decide) (by decide)
      (by decide)⟩

/-- C3.  Under the configuration invariant, the phase-1 attempt
sequence starts at `initial_quality`; each successive attempt is lower
by exactly `quality_step` (hence strictly lower); no attempt goes below
`min_quality`; every attempt except the last came out over budget, so
the search stops at the first success; and the number of attempts is at
most `ceil((initial_quality - min_quality) / quality_step) + 1`, the
ceiling written on naturals as `(range + step - 1) / step`. -/
theorem C3_quality_search (enc : Encoder) (c : ImageCompressor)
    (image : PILImage) (buffer : Buffer)
    (hq : c.min_quality ≤ c.initial_quality)
    (hstep : 0 < c.quality_step) :
    let tr := (progressive_quality_compression enc c image buffer).2.2
    let quals := tr.filterMap CompressionEvent.encodeQuality
    quals.head? = some c.initial_quality
    ∧ List.Chain' (fun a b => b = a - c.quality_step ∧ b < a) quals
    ∧ (∀ x ∈ quals, c.min_quality ≤ x)
    ∧ (∀ n ∈ (tr.filterMap CompressionEvent.encodeLen).dropLast,
        c.max_size < n)
    ∧ quals.length
      ≤ ((c.initial_quality - c.min_quality).toNat
          + c.quality_step.toNat - 1) / c.quality_step.toNat + 1 := by
  intro tr quals
  obtain ⟨b, d, tr0, h1⟩ :=
    progressive_quality_compression_ok enc c image buffer hq hstep
  have hloop := progressive_quality_compression_loop_eq enc c image
    buffer b d tr0 h1
  have htr0 := progressive_quality_loop_trace enc c image
    (phase1Fuel c) c.initial_quality none buffer b (.ok d) tr0 hloop
  have htr : tr = tr0 := by
    show (progressive_quality_compression enc c image buffer).2.2 = tr0
    rw [h1]
  have hquals : quals = phase1Attempts enc c image (phase1Fuel c)
      c.initial_quality := by
    show tr.filterMap CompressionEvent.encodeQuality = _
    rw [htr, htr0, filterMap_quality_map]
  have hlens : tr.filterMap CompressionEvent.encodeLen
      = (phase1Attempts enc c image (phase1Fuel c)
          c.initial_quality).map (fun ql => (enc image ql).length) := by
    rw [htr, htr0, filterMap_len_map]
  have hf : phase1Fuel c
      = ((c.initial_quality - c.min_quality).toNat + 1) + 1 := by
    unfold phase1Fuel; omega
  refine ⟨?_, ?_, ?_, ?_, ?_⟩
  · rcases hcons : phase1Attempts enc c image (phase1Fuel c)
        c.initial_quality with _ | ⟨a, l⟩
    · rw [hf] at hcons
      exact absurd hcons
        (phase1Attempts_ne_nil enc c image _ c.initial_quality hq)
    · rw [hquals, hcons]
      have := phase1Attempts_head enc c image (phase1Fuel c)
        c.initial_quality a (by rw [hcons]; rfl)
      rw [this]
      rfl
  · rw [hquals]
    exact phase1Attempts_chain enc c image hstep (phase1Fuel c)
      c.initial_quality
  · rw [hquals]
    intro x hx
    exact (phase1Attempts_mem enc c image hstep (phase1Fuel c)
      c.initial_quality x hx).1
  · rw [hlens, ← List.map_dropLast]
    intro n hn
    obtain ⟨x, hx, rfl⟩ := List.mem_map.mp hn
    exact phase1Attempts_dropLast enc c image (phase1Fuel c)
      c.initial_quality x hx
  · rw [hquals]
    refine le_trans (phase1Attempts_length enc c image hstep
      (phase1Fuel c) c.initial_quality) ?_
    have : (c.initial_quality - c.min_quality).toNat
          / c.quality_step.toNat
        ≤ ((c.initial_quality - c.min_quality).toNat
          + c.quality_step.toNat - 1) / c.quality_step.toNat :=
      Nat.div_le_div_right (by omega)
    omega

/-- C3, witness.  The attempt-sequence properties at a concrete
configuration (budget 1, qualities from 5 down to 1 in steps of 2)
whose encoder never fits, so all three possible attempts occur. -/
theorem C3_witness :
    (⟨1, 1, 5, 2, 5⟩ : ImageCompressor).min_quality
        ≤ (⟨1, 1, 5, 2, 5⟩ : ImageCompressor).initial_quality
    ∧ (0 : Int) < (⟨1, 1, 5, 2, 5⟩ : ImageCompressor).quality_step
    ∧ (let tr := (progressive_quality_compression (fun _ _ => [9, 9])
          ⟨1, 1, 5, 2, 5⟩ ⟨4, 4⟩ []).2.2
      let quals := tr.filterMap CompressionEvent.encodeQuality
      quals.head? = some (⟨1, 1, 5, 2, 5⟩ : ImageCompressor).initial_quality
      ∧ List.Chain' (fun a b =>
          b = a - (⟨1, 1, 5, 2, 5⟩ : ImageCompressor).quality_step
          ∧ b < a) quals
      ∧ (∀ x ∈ quals,
          (⟨1, 1, 5, 2, 5⟩ : ImageCompressor).min_quality ≤ x)
      ∧ (∀ n ∈ (tr.filterMap CompressionEvent.encodeLen).dropLast,
          (⟨1, 1, 5, 2, 5⟩ : ImageCompressor).max_size < n)
      ∧ quals.length
        ≤ (((⟨1, 1, 5, 2, 5⟩ : ImageCompressor).initial_quality
            - (⟨1, 1, 5, 2, 5⟩ : ImageCompressor).min_quality).toNat
            + (⟨1, 1, 5, 2, 5⟩ : ImageCompressor).quality_step.toNat - 1)
          / (⟨1, 1, 5, 2, 5⟩ : ImageCompressor).quality_step.toNat + 1) :=
  ⟨by decide, by decide,
    C3_quality_search (fun _ _ => [9, 9]) ⟨1, 1, 5, 2, 5⟩ ⟨4, 4⟩ []
      (by decide) (by decide)⟩

end PlayniteWebMqtt
